import Mathlib

/-!
Verification development for a one-dimensional Ritz finite-element solver.

The source program consists of: a table of Gaussian quadrature rules on the
reference interval, numeric integration by affine change of variables, the
weak formulation of the two-point boundary value problem
p·u - d/dx(q·du/dx) = r with u(0) = c and q(L)·du/dx(L) = d, a monomial basis, and
the Ritz assembly of the dense linear system.  All real arithmetic is
embedded as exact rational arithmetic on the tabulated decimal constants.
-/

/-- A trial or test function paired with its derivative. -/
abbrev DiffFun : Type := (ℚ → ℚ) × (ℚ → ℚ)

/-- The type of the bilinear form produced by the weak formulation:
arguments are u, w, du_dx, dw_dx. -/
abbrev BilinForm : Type := (ℚ → ℚ) → (ℚ → ℚ) → (ℚ → ℚ) → (ℚ → ℚ) → ℚ

/-- The type of the linear form produced by the weak formulation:
arguments are w, dw_dx. -/
abbrev LinForm : Type := (ℚ → ℚ) → (ℚ → ℚ) → ℚ

/-- The table of Gaussian quadrature rules on [-1, 1], keyed by order;
each rule is the list of (abscissa, weight) pairs of the source table. -/
def integration_points (order : ℕ) : Option (List (ℚ × ℚ)) :=
  if order = 1 then some [(0, 2)]
  else if order = 3 then
    some [(-0.577350269189625, 1), (0.577350269189625, 1)]
  else if order = 5 then
    some [(-0.774596669241483, 0.555555555555556),
          (0, 0.888888888888889),
          (0.774596669241483, 0.555555555555556)]
  else if order = 7 then
    some [(-0.861136311594052, 0.347854845137454),
          (-0.339981043584856, 0.652145154862545),
          (0.861136311594052, 0.347854845137454),
          (0.339981043584856, 0.652145154862545)]
  else none

/-- Compute the integral of f over [-1, 1] as the weighted sum
of the values of f at the abscissas of the rule. -/
def integrate_on_reference_element (pts : List (ℚ × ℚ)) (f : ℚ → ℚ) : ℚ :=
  (pts.map (fun pw => pw.2 * f pw.1)).sum

/-- Integrate f over the domain (a, b) by mapping the reference interval
onto it affinely and weighting by the constant Jacobian. -/
def integrate (pts : List (ℚ × ℚ)) (domain : ℚ × ℚ) (f : ℚ → ℚ) : ℚ :=
  let a := domain.1
  let b := domain.2
  let T : ℚ → ℚ := fun ξ => a * (1 - ξ) / 2 + b * (1 + ξ) / 2
  let J : ℚ → ℚ := fun _ξ => (b - a) / 2
  let f_hat : ℚ → ℚ := fun ξ => f (T ξ) * J ξ
  integrate_on_reference_element pts f_hat

/-- Build the weak formulation of the problem: the bilinear form
a(u, w) = ∫ (p u w + q du_dx dw_dx) and the linear form l(w) = d w(L) + ∫ r w,
both integrals taken over (0, L) with the supplied integrator. -/
def weak_formulation (integ : ℚ × ℚ → (ℚ → ℚ) → ℚ) (L : ℚ)
    (p q r : ℚ → ℚ) (_c d : ℚ) : BilinForm × LinForm :=
  (fun u w du_dx dw_dx =>
     integ (0, L) (fun x => p x * u x * w x + q x * du_dx x * dw_dx x),
   fun w _dw_dx => d * w L + integ (0, L) (fun x => r x * w x))

/-- The k-th monomial basis function x ^ k paired with its derivative. -/
def polynomial_basis_function (k : ℕ) : DiffFun :=
  (fun x => x ^ k, fun x => (k : ℚ) * x ^ (k - 1))

/-- The monomial basis x, x², x³, x⁴ (k ranging over 1..4). -/
def polynomial_basis : List DiffFun :=
  (List.range' 1 4).map polynomial_basis_function

/-- Assemble the Ritz linear system: row i, column j of the matrix holds
a(φ_j, φ_i) and entry i of the vector holds l(φ_i). -/
def ritz (wf : BilinForm × LinForm) (basis : List DiffFun) :
    List (List ℚ) × List ℚ :=
  let a := wf.1
  let l := wf.2
  (basis.map (fun φi => basis.map (fun φj => a φj.1 φi.1 φj.2 φi.2)),
   basis.map (fun φi => l φi.1 φi.2))

/-- The worked example of the source: L = 10, p = 0, q = r = 1, c = d = 1,
order-7 quadrature, monomial basis. -/
def scenario1 : List (List ℚ) × List ℚ :=
  ritz
    (weak_formulation
      (fun domain f => integrate ((integration_points 7).getD []) domain f)
      10 (fun _ => 0) (fun _ => 1) (fun _ => 1) 1 1)
    polynomial_basis

/-- x is within relative tolerance 1e-3 of the target t. -/
def relClose (x t : ℚ) : Prop := |x - t| ≤ |t| / 1000

/-- The default element used when indexing a basis out of range. -/
def dfun0 : DiffFun := (fun _ => 0, fun _ => 0)

/-- The i-th raw moment of a quadrature rule: Σ w_k ξ_k ^ i. -/
def moment (rule : List (ℚ × ℚ)) (i : ℕ) : ℚ :=
  (rule.map (fun pw => pw.2 * pw.1 ^ i)).sum

/-- The exact i-th moment of the reference interval: ∫ ξ^i dξ on [-1, 1]. -/
def refMoment (i : ℕ) : ℚ := if i % 2 = 0 then 2 / ((i : ℚ) + 1) else 0

/-- Bound on the quadrature error of x ^ n over any subinterval of
[-1, 1], expressed through the moment errors of the rule. -/
def monomialBound (rule : List (ℚ × ℚ)) (n : ℕ) : ℚ :=
  ∑ i ∈ Finset.range (n + 1), (n.choose i : ℚ) * |moment rule i - refMoment i|

/-- Accumulated bound for polynomials of degree at most n with unit
coefficients. -/
def totalBound (rule : List (ℚ × ℚ)) (n : ℕ) : ℚ :=
  ∑ m ∈ Finset.range (n + 1), monomialBound rule m

/-- C1: for L = 10, p = 0, q = r = 1, c = d = 1, the tabulated order-7
rule and the basis x, x², x³, x⁴, the assembled system matches the
expected matrix and vector, each entry within 1e-3 relative tolerance. -/
theorem scenario1_matches_expected_system :
    scenario1.1.length = 4 ∧ scenario1.2.length = 4 ∧
    (∀ row ∈ scenario1.1, row.length = 4) ∧
    relClose ((scenario1.1.getD 0 []).getD 0 0) 10 ∧
    relClose ((scenario1.1.getD 0 []).getD 1 0) 100 ∧
    relClose ((scenario1.1.getD 0 []).getD 2 0) 1000 ∧
    relClose ((scenario1.1.getD 0 []).getD 3 0) 10000 ∧
    relClose ((scenario1.1.getD 1 []).getD 0 0) 100 ∧
    relClose ((scenario1.1.getD 1 []).getD 1 0) 1333.33 ∧
    relClose ((scenario1.1.getD 1 []).getD 2 0) 15000 ∧
    relClose ((scenario1.1.getD 1 []).getD 3 0) 160000 ∧
    relClose ((scenario1.1.getD 2 []).getD 0 0) 1000 ∧
    relClose ((scenario1.1.getD 2 []).getD 1 0) 15000 ∧
    relClose ((scenario1.1.getD 2 []).getD 2 0) 180000 ∧
    relClose ((scenario1.1.getD 2 []).getD 3 0) 2000000 ∧
    relClose ((scenario1.1.getD 3 []).getD 0 0) 10000 ∧
    relClose ((scenario1.1.getD 3 []).getD 1 0) 160000 ∧
    relClose ((scenario1.1.getD 3 []).getD 2 0) 2000000 ∧
    relClose ((scenario1.1.getD 3 []).getD 3 0) 22857142.9 ∧
    relClose (scenario1.2.getD 0 0) 60 ∧
    relClose (scenario1.2.getD 1 0) 433.33 ∧
    relClose (scenario1.2.getD 2 0) 3500 ∧
    relClose (scenario1.2.getD 3 0) 30000 := by
  simp only [scenario1, ritz, weak_formulation, integrate,
    integrate_on_reference_element, integration_points, polynomial_basis,
    polynomial_basis_function, relClose, List.range']
  norm_num [abs_le, abs_of_nonneg, List.getD, polynomial_basis_function]

lemma ritz_A_length (wf : BilinForm × LinForm) (basis : List DiffFun) :
    (ritz wf basis).1.length = basis.length := by
  simp [ritz]

lemma ritz_b_length (wf : BilinForm × LinForm) (basis : List DiffFun) :
    (ritz wf basis).2.length = basis.length := by
  simp [ritz]

lemma ritz_row_length (wf : BilinForm × LinForm) (basis : List DiffFun)
    (i : ℕ) (hi : i < basis.length) :
    ((ritz wf basis).1.getD i []).length = basis.length := by
  simp [ritz, List.getD_eq_getElem?_getD, List.getElem?_map,
    List.getElem?_eq_getElem, hi]

lemma ritz_A_entry (a : BilinForm) (l : LinForm) (basis : List DiffFun)
    (i j : ℕ) (hi : i < basis.length) (hj : j < basis.length) :
    ((ritz (a, l) basis).1.getD i []).getD j 0
      = a (basis.getD j dfun0).1 (basis.getD i dfun0).1
          (basis.getD j dfun0).2 (basis.getD i dfun0).2 := by
  simp [ritz, List.getD_eq_getElem?_getD, List.getElem?_map,
    List.getElem?_eq_getElem, hi, hj]

lemma ritz_b_entry (a : BilinForm) (l : LinForm) (basis : List DiffFun)
    (i : ℕ) (hi : i < basis.length) :
    (ritz (a, l) basis).2.getD i 0
      = l (basis.getD i dfun0).1 (basis.getD i dfun0).2 := by
  simp [ritz, List.getD_eq_getElem?_getD, List.getElem?_map,
    List.getElem?_eq_getElem, hi]

/-- C2: for every basis of n differentiable functions and every weak form
(a, l), ritz returns an n×n matrix A and length-n vector b with
A[i][j] = a(φ_j, φ_i) — trial function φ_j first, test function φ_i
second, with matching derivative arguments — and b[i] = l(φ_i), for any
bilinear form a, symmetric or not. -/
theorem ritz_assembles_entries (a : BilinForm) (l : LinForm)
    (basis : List DiffFun) (i j : ℕ)
    (hi : i < basis.length) (hj : j < basis.length) :
    (ritz (a, l) basis).1.length = basis.length ∧
    (ritz (a, l) basis).2.length = basis.length ∧
    ((ritz (a, l) basis).1.getD i []).length = basis.length ∧
    ((ritz (a, l) basis).1.getD i []).getD j 0
      = a (basis.getD j dfun0).1 (basis.getD i dfun0).1
          (basis.getD j dfun0).2 (basis.getD i dfun0).2 ∧
    (ritz (a, l) basis).2.getD i 0
      = l (basis.getD i dfun0).1 (basis.getD i dfun0).2 :=
  ⟨ritz_A_length _ _, ritz_b_length _ _, ritz_row_length _ _ i hi,
   ritz_A_entry a l basis i j hi hj, ritz_b_entry a l basis i hi⟩

/-- C2 witness: the entry equations instantiated on the monomial basis
with a concrete asymmetric bilinear form, at i = 0, j = 1. -/
theorem ritz_assembles_entries_witness :
    (ritz (fun u w du dw => u 2 + 3 * w 2 + du 1 + 5 * dw 1,
           fun w dw => w 2 + dw 3) polynomial_basis).1.length
        = polynomial_basis.length ∧
    (ritz (fun u w du dw => u 2 + 3 * w 2 + du 1 + 5 * dw 1,
           fun w dw => w 2 + dw 3) polynomial_basis).2.length
        = polynomial_basis.length ∧
    ((ritz (fun u w du dw => u 2 + 3 * w 2 + du 1 + 5 * dw 1,
            fun w dw => w 2 + dw 3) polynomial_basis).1.getD 0 []).length
        = polynomial_basis.length ∧
    ((ritz (fun u w du dw => u 2 + 3 * w 2 + du 1 + 5 * dw 1,
            fun w dw => w 2 + dw 3) polynomial_basis).1.getD 0 []).getD 1 0
      = (polynomial_basis.getD 1 dfun0).1 2
          + 3 * (polynomial_basis.getD 0 dfun0).1 2
          + (polynomial_basis.getD 1 dfun0).2 1
          + 5 * (polynomial_basis.getD 0 dfun0).2 1 ∧
    (ritz (fun u w du dw => u 2 + 3 * w 2 + du 1 + 5 * dw 1,
           fun w dw => w 2 + dw 3) polynomial_basis).2.getD 0 0
      = (polynomial_basis.getD 0 dfun0).1 2
          + (polynomial_basis.getD 0 dfun0).2 3 :=
  ritz_assembles_entries _ _ polynomial_basis 0 1
    (by simp [polynomial_basis]) (by simp [polynomial_basis])

/-- C3: the reference integrator computes the weighted sum of function
values at the abscissas, and integrate delegates to it with the
affinely transformed integrand scaled by the Jacobian (b - a)/2. -/
theorem integrate_delegates_to_reference
    (rule : List (ℚ × ℚ)) (f : ℚ → ℚ) (a b : ℚ) :
    integrate_on_reference_element rule f
      = (∑ k : Fin rule.length, (rule.get k).2 * f (rule.get k).1) ∧
    integrate rule (a, b) f
      = integrate_on_reference_element rule
          (fun ξ => f (a * (1 - ξ) / 2 + b * (1 + ξ) / 2) * ((b - a) / 2)) := by
  constructor
  · induction rule with
    | nil => simp [integrate_on_reference_element]
    | cons hd tl ih =>
        simp [integrate_on_reference_element, Fin.sum_univ_succ] at ih ⊢
        exact ih
  · rfl

/-- C4: the bilinear form built by the weak formulation is symmetric in
its two differentiable-function arguments for every integrator and
coefficients, and consequently the assembled matrix is symmetric. -/
theorem weak_form_bilinear_symmetric (integ : ℚ × ℚ → (ℚ → ℚ) → ℚ)
    (L : ℚ) (p q r : ℚ → ℚ) (c d : ℚ) :
    (∀ u w du dw,
       (weak_formulation integ L p q r c d).1 u w du dw
         = (weak_formulation integ L p q r c d).1 w u dw du) ∧
    (∀ (basis : List DiffFun) (i j : ℕ),
       i < basis.length → j < basis.length →
       ((ritz (weak_formulation integ L p q r c d) basis).1.getD i []).getD j 0
         = ((ritz (weak_formulation integ L p q r c d) basis).1.getD j []).getD i 0) := by
  have hsymm : ∀ u w du dw : ℚ → ℚ,
      (weak_formulation integ L p q r c d).1 u w du dw
        = (weak_formulation integ L p q r c d).1 w u dw du := by
    intro u w du dw
    simp only [weak_formulation]
    congr 1
    funext x
    ring
  refine ⟨hsymm, fun basis i j hi hj => ?_⟩
  have h1 := ritz_A_entry (weak_formulation integ L p q r c d).1
    (weak_formulation integ L p q r c d).2 basis i j hi hj
  have h2 := ritz_A_entry (weak_formulation integ L p q r c d).1
    (weak_formulation integ L p q r c d).2 basis j i hj hi
  rw [h1, h2, hsymm]

/-- C4 witness: matrix symmetry at the concrete scenario of the source,
instantiated at i = 0, j = 1. -/
theorem weak_form_bilinear_symmetric_witness :
    ((ritz (weak_formulation
        (fun domain f => integrate ((integration_points 7).getD []) domain f)
        10 (fun _ => 0) (fun _ => 1) (fun _ => 1) 1 1)
        polynomial_basis).1.getD 0 []).getD 1 0
      = ((ritz (weak_formulation
          (fun domain f => integrate ((integration_points 7).getD []) domain f)
          10 (fun _ => 0) (fun _ => 1) (fun _ => 1) 1 1)
          polynomial_basis).1.getD 1 []).getD 0 0 :=
  (weak_form_bilinear_symmetric _ 10 (fun _ => 0) (fun _ => 1) (fun _ => 1)
    1 1).2 polynomial_basis 0 1 (by simp [polynomial_basis])
    (by simp [polynomial_basis])

/-- C5 counterexample: calling integrate with the reversed domain (1, 0)
does not fail — no domain check exists — and returns the numeric value
-1/2 for f(x) = x with the tabulated order-1 rule. -/
theorem integrate_reversed_domain_returns_value :
    integrate ((integration_points 1).getD []) (1, 0) (fun x => x)
      = -(1 / 2) := by
  norm_num [integrate, integrate_on_reference_element, integration_points]

/-- C5 amended: integrate performs no domain validation; for a ≥ b it
still returns the value of the usual quadrature formula, with the sign
carried by the Jacobian (b - a)/2. -/
theorem integrate_total_on_reversed_domain (rule : List (ℚ × ℚ))
    (f : ℚ → ℚ) (a b : ℚ) (hba : b ≤ a) :
    integrate rule (a, b) f
      = integrate_on_reference_element rule
          (fun ξ => f (a * (1 - ξ) / 2 + b * (1 + ξ) / 2) * ((b - a) / 2)) :=
  rfl

/-- C5 amended witness: the formula value at the concrete reversed
domain (1, 0). -/
theorem integrate_total_on_reversed_domain_witness :
    integrate [((0 : ℚ), (2 : ℚ))] (1, 0) (fun x => x)
      = integrate_on_reference_element [((0 : ℚ), (2 : ℚ))]
          (fun ξ => (1 * (1 - ξ) / 2 + 0 * (1 + ξ) / 2) * ((0 - 1) / 2)) :=
  integrate_total_on_reversed_domain [((0 : ℚ), (2 : ℚ))]
    (fun x => x) 1 0 (by norm_num)

lemma sum_map_zero {α : Type} (l : List α) :
    (l.map (fun _ => (0 : ℚ))).sum = 0 := by
  induction l with
  | nil => rfl
  | cons hd tl ih => simp [ih]

/-- C7: the linear form contains the boundary term d·w(L) additively and
separately from the integral term, and with r the zero function it
equals d·w(L) exactly: the quadrature sum over the zero integrand is 0. -/
theorem linear_form_boundary_term (L : ℚ) (p q r : ℚ → ℚ) (c d : ℚ) :
    (∀ (integ : ℚ × ℚ → (ℚ → ℚ) → ℚ) (w dw : ℚ → ℚ),
       (weak_formulation integ L p q r c d).2 w dw
         = d * w L + integ (0, L) (fun x => r x * w x)) ∧
    (∀ (rule : List (ℚ × ℚ)) (w dw : ℚ → ℚ),
       (weak_formulation (fun domain f => integrate rule domain f)
          L p q (fun _ => 0) c d).2 w dw = d * w L) := by
  constructor
  · intro integ w dw
    rfl
  · intro rule w dw
    simp only [weak_formulation, integrate, integrate_on_reference_element,
      zero_mul, mul_zero, sum_map_zero, add_zero]

/-- C8: for k ≥ 1 the k-th monomial basis function is the pair
(x ↦ x^k, x ↦ k·x^(k-1)), it vanishes at the Dirichlet point x = 0, and
the generated basis lists these pairs for k = 1, 2, 3, 4 in order. -/
theorem polynomial_basis_spec (k : ℕ) (hk : 1 ≤ k) :
    (polynomial_basis_function k).1 = (fun x => x ^ k) ∧
    (polynomial_basis_function k).2 = (fun x => (k : ℚ) * x ^ (k - 1)) ∧
    (polynomial_basis_function k).1 0 = 0 ∧
    polynomial_basis = [polynomial_basis_function 1, polynomial_basis_function 2,
      polynomial_basis_function 3, polynomial_basis_function 4] := by
  refine ⟨rfl, rfl, ?_, rfl⟩
  simp only [polynomial_basis_function]
  exact zero_pow (by omega)

/-- C8 witness: the monomial pair at k = 2. -/
theorem polynomial_basis_spec_witness :
    (polynomial_basis_function 2).1 = (fun x => x ^ 2) ∧
    (polynomial_basis_function 2).2 = (fun x => (2 : ℚ) * x ^ (2 - 1)) ∧
    (polynomial_basis_function 2).1 0 = 0 ∧
    polynomial_basis = [polynomial_basis_function 1, polynomial_basis_function 2,
      polynomial_basis_function 3, polynomial_basis_function 4] :=
  polynomial_basis_spec 2 (by norm_num)

/-- C9: in every tabulated rule each abscissa lies in [-1, 1], each
weight is strictly positive, and the weights sum to 2 to within the
precision of the tabulated 15-digit constants. -/
theorem quadrature_table_invariants (o : ℕ) (pts : List (ℚ × ℚ))
    (h : integration_points o = some pts) :
    (∀ pw ∈ pts, -1 ≤ pw.1 ∧ pw.1 ≤ 1 ∧ 0 < pw.2) ∧
    |(pts.map (fun pw => pw.2)).sum - 2| ≤ 1 / 100000000000000 := by
  unfold integration_points at h
  split_ifs at h <;> injection h with h <;> subst h <;>
    refine ⟨fun pw hpw => ?_, by norm_num [abs_le]⟩ <;>
    fin_cases hpw <;> norm_num

/-- C9 witness: the invariants instantiated on the order-7 rule. -/
theorem quadrature_table_invariants_witness :
    (∀ pw ∈ [((-0.861136311594052 : ℚ), (0.347854845137454 : ℚ)),
             (-0.339981043584856, 0.652145154862545),
             (0.861136311594052, 0.347854845137454),
             (0.339981043584856, 0.652145154862545)],
       -1 ≤ pw.1 ∧ pw.1 ≤ 1 ∧ 0 < pw.2) ∧
    |([((-0.861136311594052 : ℚ), (0.347854845137454 : ℚ)),
       (-0.339981043584856, 0.652145154862545),
       (0.861136311594052, 0.347854845137454),
       (0.339981043584856, 0.652145154862545)].map
        (fun pw => pw.2)).sum - 2| ≤ 1 / 100000000000000 :=
  quadrature_table_invariants 7 _ rfl

/-- C10 counterexample: with the (weight-2, single-point) rule at
abscissa 1 — a valid rule by the data-model invariants but not symmetric
under ξ ↦ -ξ — swapping the endpoints does not negate the result. -/
theorem endpoint_swap_negation_fails :
    ¬ (integrate [((1 : ℚ), (2 : ℚ))] (1, 0) (fun x => x)
        = - integrate [((1 : ℚ), (2 : ℚ))] (0, 1) (fun x => x)) := by
  norm_num [integrate, integrate_on_reference_element]

lemma sum_map_neg_q {α : Type} (l : List α) (g : α → ℚ) :
    (l.map (fun x => -(g x))).sum = -((l.map g).sum) := by
  induction l with
  | nil => simp
  | cons hd tl ih => simp [ih]; ring

/-- C10 amended: swapping the endpoints negates the result for every
rule invariant under ξ ↦ -ξ (weights preserved) up to reordering — as
all four tabulated rules are — and for every rule a degenerate domain
(a, a) yields exactly zero. -/
theorem integrate_endpoint_reversal :
    (∀ rule : List (ℚ × ℚ),
       (rule.map (fun pw => (-pw.1, pw.2))).Perm rule →
       ∀ (f : ℚ → ℚ) (a b : ℚ),
         integrate rule (b, a) f = - integrate rule (a, b) f) ∧
    (∀ (rule : List (ℚ × ℚ)) (f : ℚ → ℚ) (a : ℚ),
       integrate rule (a, a) f = 0) ∧
    (∀ (o : ℕ) (pts : List (ℚ × ℚ)), integration_points o = some pts →
       (pts.map (fun pw => (-pw.1, pw.2))).Perm pts) := by
  refine ⟨?_, ?_, ?_⟩
  · intro rule hsym f a b
    unfold integrate integrate_on_reference_element
    have hperm := (List.Perm.map
      (fun pw : ℚ × ℚ =>
        pw.2 * (f (b * (1 - pw.1) / 2 + a * (1 + pw.1) / 2) * ((a - b) / 2)))
      hsym).sum_eq
    rw [List.map_map] at hperm
    rw [← hperm]
    have hfun : ((fun pw : ℚ × ℚ =>
          pw.2 * (f (b * (1 - pw.1) / 2 + a * (1 + pw.1) / 2) * ((a - b) / 2)))
            ∘ (fun pw : ℚ × ℚ => (-pw.1, pw.2)))
        = fun pw : ℚ × ℚ =>
            -(pw.2 * (f (a * (1 - pw.1) / 2 + b * (1 + pw.1) / 2) * ((b - a) / 2))) := by
      funext pw
      have harg : b * (1 - -pw.1) / 2 + a * (1 + -pw.1) / 2
          = a * (1 - pw.1) / 2 + b * (1 + pw.1) / 2 := by ring
      simp only [Function.comp]
      rw [harg]
      ring
    rw [hfun, sum_map_neg_q]
  · intro rule f a
    unfold integrate integrate_on_reference_element
    simp [sum_map_zero]
  · intro o pts h
    unfold integration_points at h
    split_ifs at h <;> injection h with h <;> subst h
    · norm_num
    · have := List.reverse_perm
        [((-0.577350269189625 : ℚ), (1 : ℚ)), (0.577350269189625, 1)]
      simpa using this
    · have h2 : ([((-0.774596669241483 : ℚ), (0.555555555555556 : ℚ)),
           (0, 0.888888888888889), (0.774596669241483, 0.555555555555556)].map
             (fun pw => (-pw.1, pw.2)))
          = [((-0.774596669241483 : ℚ), (0.555555555555556 : ℚ)),
             (0, 0.888888888888889),
             (0.774596669241483, 0.555555555555556)].reverse := by
        norm_num
      rw [h2]
      exact List.reverse_perm _
    · have := @List.perm_append_comm (ℚ × ℚ)
        [(0.861136311594052, 0.347854845137454),
         (0.339981043584856, 0.652145154862545)]
        [(-0.861136311594052, 0.347854845137454),
         (-0.339981043584856, 0.652145154862545)]
      simpa using this

/-- C10 amended witness: the sign reversal at the order-3 rule on the
interval (0, 1) with f(x) = x, and the degenerate domain at a = 2. -/
theorem integrate_endpoint_reversal_witness :
    integrate [((-0.577350269189625 : ℚ), (1 : ℚ)), (0.577350269189625, 1)]
        (1, 0) (fun x => x)
      = - integrate [((-0.577350269189625 : ℚ), (1 : ℚ)), (0.577350269189625, 1)]
          (0, 1) (fun x => x) ∧
    integrate [((-0.577350269189625 : ℚ), (1 : ℚ)), (0.577350269189625, 1)]
        (2, 2) (fun x => x) = 0 :=
  ⟨integrate_endpoint_reversal.1 _
     (by
       have := List.reverse_perm
         [((-0.577350269189625 : ℚ), (1 : ℚ)), (0.577350269189625, 1)]
       simpa using this)
     (fun x => x) 0 1,
   integrate_endpoint_reversal.2.1 _ (fun x => x) 2⟩

lemma ref_sum_poly (rule : List (ℚ × ℚ)) (F : ℕ → ℚ) (N : ℕ) :
    integrate_on_reference_element rule
        (fun ξ => ∑ i ∈ Finset.range N, F i * ξ ^ i)
      = ∑ i ∈ Finset.range N, F i * moment rule i := by
  induction rule with
  | nil => simp [integrate_on_reference_element, moment]
  | cons hd tl ih =>
      have hmom : ∀ i, moment (hd :: tl) i = hd.2 * hd.1 ^ i + moment tl i := by
        intro i; simp [moment]
      simp only [integrate_on_reference_element, List.map_cons,
        List.sum_cons] at ih ⊢
      rw [ih, Finset.mul_sum]
      simp only [hmom, mul_add, Finset.sum_add_distrib]
      congr 1
      exact Finset.sum_congr rfl (fun i _ => by ring)

lemma integrate_monomial (rule : List (ℚ × ℚ)) (n : ℕ) (a b : ℚ) :
    integrate rule (a, b) (fun x => x ^ n)
      = ∑ i ∈ Finset.range (n + 1),
          (n.choose i : ℚ) * ((a + b) / 2) ^ (n - i) * ((b - a) / 2) ^ (i + 1)
            * moment rule i := by
  have hfun : (fun ξ : ℚ => (a * (1 - ξ) / 2 + b * (1 + ξ) / 2) ^ n * ((b - a) / 2))
      = fun ξ => ∑ i ∈ Finset.range (n + 1),
          ((n.choose i : ℚ) * ((a + b) / 2) ^ (n - i) * ((b - a) / 2) ^ (i + 1)) * ξ ^ i := by
    funext ξ
    rw [show a * (1 - ξ) / 2 + b * (1 + ξ) / 2
          = (b - a) / 2 * ξ + (a + b) / 2 from by ring, add_pow,
        Finset.sum_mul]
    exact Finset.sum_congr rfl (fun i _ => by rw [mul_pow]; ring)
  simp only [integrate]
  rw [hfun, ref_sum_poly]

lemma exact_monomial_moments (n : ℕ) (hn : n ≤ 7) (a b : ℚ) :
    (b ^ (n + 1) - a ^ (n + 1)) / ((n : ℚ) + 1)
      = ∑ i ∈ Finset.range (n + 1),
          (n.choose i : ℚ) * ((a + b) / 2) ^ (n - i) * ((b - a) / 2) ^ (i + 1)
            * refMoment i := by
  interval_cases n <;>
    · simp only [Finset.sum_range_succ, Finset.sum_range_zero, refMoment]
      norm_num [Nat.choose]
      try ring

lemma monomial_error_bound (rule : List (ℚ × ℚ)) (n : ℕ) (hn : n ≤ 7)
    (a b : ℚ) (ha : |a| ≤ 1) (hb : |b| ≤ 1) :
    |integrate rule (a, b) (fun x => x ^ n)
        - (b ^ (n + 1) - a ^ (n + 1)) / ((n : ℚ) + 1)|
      ≤ monomialBound rule n := by
  have hmid : |(a + b) / 2| ≤ 1 := by
    rw [abs_div, abs_two, div_le_one (by norm_num)]
    exact (abs_add a b).trans (by linarith)
  have hh : |(b - a) / 2| ≤ 1 := by
    rw [abs_div, abs_two, div_le_one (by norm_num), sub_eq_add_neg]
    refine (abs_add b (-a)).trans ?_
    rw [abs_neg]
    linarith
  rw [integrate_monomial, exact_monomial_moments n hn, ← Finset.sum_sub_distrib]
  refine (Finset.abs_sum_le_sum_abs _ _).trans ?_
  unfold monomialBound
  refine Finset.sum_le_sum ?_
  intro i _
  rw [← mul_sub, abs_mul, abs_mul, abs_mul, Nat.abs_cast, abs_pow, abs_pow]
  calc (n.choose i : ℚ) * |(a + b) / 2| ^ (n - i) * |(b - a) / 2| ^ (i + 1)
        * |moment rule i - refMoment i|
      ≤ (n.choose i : ℚ) * 1 * 1 * |moment rule i - refMoment i| := by
        gcongr
        · exact pow_le_one₀ (abs_nonneg _) hmid
        · exact pow_le_one₀ (abs_nonneg _) hh
    _ = (n.choose i : ℚ) * |moment rule i - refMoment i| := by ring

lemma integrate_poly (rule : List (ℚ × ℚ)) (N : ℕ) (c : ℕ → ℚ) (a b : ℚ) :
    integrate rule (a, b) (fun x => ∑ i ∈ Finset.range N, c i * x ^ i)
      = ∑ i ∈ Finset.range N, c i * integrate rule (a, b) (fun x => x ^ i) := by
  simp only [integrate]
  induction rule with
  | nil => simp [integrate_on_reference_element]
  | cons hd tl ih =>
      simp only [integrate_on_reference_element, List.map_cons,
        List.sum_cons] at ih ⊢
      rw [ih]
      simp only [mul_add, Finset.sum_add_distrib]
      congr 1
      rw [Finset.sum_mul, Finset.mul_sum]
      exact Finset.sum_congr rfl (fun i _ => by ring)

lemma poly_error_bound (rule : List (ℚ × ℚ)) (n : ℕ) (hn : n ≤ 7)
    (c : ℕ → ℚ) (hc : ∀ i, |c i| ≤ 1) (a b : ℚ)
    (ha : |a| ≤ 1) (hb : |b| ≤ 1) :
    |integrate rule (a, b) (fun x => ∑ i ∈ Finset.range (n + 1), c i * x ^ i)
        - ∑ i ∈ Finset.range (n + 1),
            c i * ((b ^ (i + 1) - a ^ (i + 1)) / ((i : ℚ) + 1))|
      ≤ totalBound rule n := by
  rw [integrate_poly, ← Finset.sum_sub_distrib]
  refine (Finset.abs_sum_le_sum_abs _ _).trans ?_
  unfold totalBound
  refine Finset.sum_le_sum ?_
  intro i hi
  rw [← mul_sub, abs_mul]
  have hi7 : i ≤ 7 := le_trans (Nat.lt_succ_iff.mp (Finset.mem_range.mp hi)) hn
  calc |c i| * |integrate rule (a, b) (fun x => x ^ i)
          - (b ^ (i + 1) - a ^ (i + 1)) / ((i : ℚ) + 1)|
      ≤ 1 * monomialBound rule i :=
        mul_le_mul (hc i) (monomial_error_bound rule i hi7 a b ha hb)
          (abs_nonneg _) (by norm_num)
    _ = monomialBound rule i := one_mul _

lemma totalBound_mono (rule : List (ℚ × ℚ)) (m1 m2 : ℕ) (h12 : m1 ≤ m2) :
    totalBound rule m1 ≤ totalBound rule m2 := by
  unfold totalBound
  refine Finset.sum_le_sum_of_subset_of_nonneg
    (Finset.range_subset.mpr (by omega)) ?_
  intro i _ _
  unfold monomialBound
  refine Finset.sum_nonneg ?_
  intro j _
  positivity

set_option maxHeartbeats 1600000 in
/-- C6: for every supported order k (1, 3, 5, 7), every polynomial of
degree at most k whose coefficients have modest magnitude (at most 1),
and every interval (a, b) ⊆ [-1, 1] with a < b, integrate with the
tabulated rule for order k is within absolute error 1e-10 of the exact
integral. -/
theorem gauss_quadrature_exact_on_low_degree (k : ℕ) (rule : List (ℚ × ℚ))
    (hrule : integration_points k = some rule) (n : ℕ) (hn : n ≤ k)
    (c : ℕ → ℚ) (hc : ∀ i, |c i| ≤ 1) (a b : ℚ)
    (ha : |a| ≤ 1) (hb : |b| ≤ 1) (hab : a < b) :
    |integrate rule (a, b) (fun x => ∑ i ∈ Finset.range (n + 1), c i * x ^ i)
        - ∑ i ∈ Finset.range (n + 1),
            c i * ((b ^ (i + 1) - a ^ (i + 1)) / ((i : ℚ) + 1))|
      < 1 / 10000000000 := by
  unfold integration_points at hrule
  split_ifs at hrule with h1 h2 h3 h4 <;> injection hrule with hrule <;>
    subst hrule
  · subst h1
    refine lt_of_le_of_lt
      ((poly_error_bound _ n (by omega) c hc a b ha hb).trans
        (totalBound_mono _ n 1 hn)) ?_
    norm_num [totalBound, monomialBound, moment, refMoment,
      Finset.sum_range_succ, Nat.choose, abs_of_nonneg, abs_of_nonpos]
  · subst h2
    refine lt_of_le_of_lt
      ((poly_error_bound _ n (by omega) c hc a b ha hb).trans
        (totalBound_mono _ n 3 hn)) ?_
    norm_num [totalBound, monomialBound, moment, refMoment,
      Finset.sum_range_succ, Nat.choose, abs_of_nonneg, abs_of_nonpos]
  · subst h3
    refine lt_of_le_of_lt
      ((poly_error_bound _ n (by omega) c hc a b ha hb).trans
        (totalBound_mono _ n 5 hn)) ?_
    norm_num [totalBound, monomialBound, moment, refMoment,
      Finset.sum_range_succ, Nat.choose, abs_of_nonneg, abs_of_nonpos]
  · subst h4
    refine lt_of_le_of_lt
      ((poly_error_bound _ n (by omega) c hc a b ha hb).trans
        (totalBound_mono _ n 7 hn)) ?_
    norm_num [totalBound, monomialBound, moment, refMoment,
      Finset.sum_range_succ, Nat.choose, abs_of_nonneg, abs_of_nonpos]

/-- C6 witness: the exactness bound at order 3 for the polynomial 1 + x
on the interval (0, 1). -/
theorem gauss_quadrature_exact_on_low_degree_witness :
    |integrate [((-0.577350269189625 : ℚ), (1 : ℚ)), (0.577350269189625, 1)]
        (0, 1) (fun x => ∑ i ∈ Finset.range 2, (1 : ℚ) * x ^ i)
        - ∑ i ∈ Finset.range 2,
            (1 : ℚ) * (((1 : ℚ) ^ (i + 1) - (0 : ℚ) ^ (i + 1)) / ((i : ℚ) + 1))|
      < 1 / 10000000000 :=
  gauss_quadrature_exact_on_low_degree 3 _
    (by norm_num [integration_points]) 1 (by norm_num)
    (fun _ => 1) (fun i => by norm_num) 0 1 (by norm_num) (by norm_num)
    (by norm_num)
